import Mathlib

/-!
Verification development for the svn2git synchronisation tool.

The definitions below are shallow embeddings of the Rust sources:

* `src/sync.rs` — the sync orchestrator (`SyncTool::run_with_options`,
  `limit_logs`, `has_conflict_entries`, `ensure_git_conflict_free`);
* `src/config/manager.rs` — the history manager (`add_record`, `remove_record`);
* `src/config/reocrd.rs` — `HistoryRecord` and `cmp_last_used`;
* `src/config/disk.rs` — `DiskStorage`'s `FileStorage` implementation;
* `src/ops/mock_git.rs` — the in-memory Git backend (`MockGitRepo`,
  `MockGitOperations::status`).

Rust strings are modelled as `List Char` (a Rust `String` is a sequence of
Unicode scalar values, exactly what Lean's `Char` represents); byte-level
operations (`str::len`, byte slicing) are modelled through the UTF-8 byte
size of each character.  Fallible Rust code returning `Result<T, SyncError>`
is modelled with `Except SyncError T`; a Rust panic is modelled by `Option`
(`none` = panic) or by a dedicated `RunResult.panic` constructor.
-/

namespace Svn2Git

/-- An SVN log entry (`SvnLog` in `src/ops/svn.rs`): a revision identifier
and a commit message. -/
structure SvnLog where
  version : String
  message : String
deriving DecidableEq, Repr

/-- The error enum `SyncError` of `src/error.rs`, restricted to the variants
that can flow through the orchestrator and the history manager (`Io`, `App`,
`Json`); the other variants are isomorphic to these for the purposes of the
claims (each one wraps a message string). -/
inductive SyncError where
  | io (msg : String)
  | app (msg : String)
  | json (msg : String)
deriving DecidableEq, Repr

/-- The `Display` rendering of `SyncError` produced by the `thiserror`
attributes in `src/error.rs`. -/
def SyncError.display : SyncError → String
  | .io m => "IO error: " ++ m
  | .app m => "Application error: " ++ m
  | .json m => "Json error: " ++ m

/-- Structure `SyncRunOptions` from `src/sync.rs`. -/
structure SyncRunOptions where
  dry_run : Bool
  limit : Option Nat
deriving DecidableEq, Repr

/-- Default options `SyncRunOptions::default()`: `dry_run = false`, `limit = None`. -/
def SyncRunOptions.default : SyncRunOptions := ⟨false, none⟩

/-! ## Byte-level model of Rust strings

`has_conflict_entries` in `src/sync.rs` checks `line.len() < 2` (a byte
count) and then slices `&line[..2]` (a byte slice, which panics when byte
offset 2 is not a character boundary).  We model a Rust `&str` as
`List Char` and compute UTF-8 byte sizes explicitly. -/

/-- UTF-8 encoded size in bytes of a Unicode scalar value (Rust
`char::len_utf8`). -/
def utf8Len (c : Char) : Nat :=
  if c.toNat < 0x80 then 1
  else if c.toNat < 0x800 then 2
  else if c.toNat < 0x10000 then 3
  else 4

/-- Rust `str::len`: the length of the string in bytes. -/
def byteLen (s : List Char) : Nat :=
  (s.map utf8Len).sum

/-- Split a character sequence at every `'\n'` (the separators are dropped;
an empty input gives one empty field, like `"".split('\n')`). -/
def splitOnNewline : List Char → List (List Char)
  | [] => [[]]
  | c :: rest =>
    if c = '\n' then [] :: splitOnNewline rest
    else
      match splitOnNewline rest with
      | [] => [[c]]
      | l :: ls => (c :: l) :: ls

/-- Remove one trailing `'\r'`, as Rust `str::lines` does to each line. -/
def stripTrailingCR (l : List Char) : List Char :=
  match l.getLast? with
  | some '\r' => l.dropLast
  | _ => l

/-- Rust `str::lines`: split on `'\n'`, drop a final empty field produced by
a trailing newline (an empty string yields no lines at all), and strip one
trailing `'\r'` from each line. -/
def rustLines (s : List Char) : List (List Char) :=
  if s = [] then []
  else
    let parts := splitOnNewline s
    let parts := if s.getLast? = some '\n' then parts.dropLast else parts
    parts.map stripTrailingCR

/-- The conflict two-byte prefixes matched in `has_conflict_entries`
(`src/sync.rs:200`). -/
def conflictPrefixes : List (List Char) :=
  [['D','D'], ['A','U'], ['U','D'], ['U','A'], ['D','U'], ['A','A'], ['U','U']]

/-- The Rust byte slice `&line[..2]`, evaluated on a line of byte length at
least 2: `some` of the characters covered by the first two bytes when byte
offset 2 is a character boundary, `none` (panic) otherwise. -/
def sliceFirstTwoBytes (line : List Char) : Option (List Char) :=
  match line with
  | [] => none
  | c :: rest =>
    if utf8Len c = 1 then
      match rest with
      | [] => none
      | d :: _ => if utf8Len d = 1 then some [c, d] else none
    else if utf8Len c = 2 then some [c]
    else none

/-- The body of the closure in `has_conflict_entries` applied to one line:
`some false` when the line is shorter than two bytes, otherwise the result
of matching the two-byte slice against the conflict set; `none` models the
panic of `&line[..2]` on a non-boundary offset. -/
def lineConflict (line : List Char) : Option Bool :=
  if byteLen line < 2 then some false
  else
    match sliceFirstTwoBytes line with
    | none => none
    | some pre => some (conflictPrefixes.contains pre)

/-- Model of `Iterator::any` over lines with panic propagation: short-circuits on the
first `true`, propagates the first panic encountered before that. -/
def anyLineConflict : List (List Char) → Option Bool
  | [] => some false
  | l :: ls =>
    match lineConflict l with
    | none => none
    | some true => some true
    | some false => anyLineConflict ls

/-- Function `has_conflict_entries` from `src/sync.rs:195-202`, with `none` modelling
a panic of the byte slice `&line[..2]`. -/
def has_conflict_entries (status : List Char) : Option Bool :=
  anyLineConflict (rustLines status)

/-! ## The sync orchestrator

`SyncTool::run_with_options` (`src/sync.rs:112-175`) drives the per-revision
loop against injected SVN/Git/interactor/history collaborators.  We model the
collaborators by their response sequences (`SyncEnv`): the orchestrator calls
each per-entry operation exactly once per loop iteration, in a fixed order,
so the response to the call made while processing log index `i` is indexed by
`i`.  The run produces a `RunResult` together with the trace of collaborator
calls it issued, in order. -/

/-- Function `limit_logs` from `src/sync.rs:188-193`. -/
def limit_logs (logs : List SvnLog) (limit : Option Nat) : List SvnLog :=
  match limit with
  | some n => logs.take n
  | none => logs

/-- One observable collaborator call made by the orchestrator.  `preview` is
the per-entry dry-run line printed at `src/sync.rs:124`. -/
inductive Event where
  | getLogs
  | confirm (logs : List SvnLog)
  | preview (version message : String)
  | updateToRev (version : String)
  | statusQuery
  | addAll
  | commit (message : String)
  | saveHistory
deriving DecidableEq, Repr

/-- Responses of the injected collaborators.  Per-entry operations are given
as functions of the loop index of the call (the orchestrator performs at most
one call per operation per iteration, in iteration order, so the loop index
coincides with the per-operation call count). -/
structure SyncEnv where
  logs : Except SyncError (List SvnLog)
  confirmAnswer : List SvnLog → Bool
  updateResp : Nat → Except SyncError Unit
  statusResp : Nat → Except SyncError (List Char)
  addAllResp : Nat → Except SyncError Unit
  commitResp : Nat → Except SyncError Unit
  saveResp : Except SyncError Unit

/-- Outcome of a run: `Ok(())`, `Err(e)`, or a Rust panic (reachable only
through the byte slice inside `has_conflict_entries`). -/
inductive RunResult where
  | ok
  | err (e : SyncError)
  | panic
deriving DecidableEq, Repr

/-- The per-entry error wrapping of `src/sync.rs:139-170`:
`SyncError::App(format!("同步第 {} 条日志失败（SVN r{}）：{}", idx + 1, log.version, e))`. -/
def wrapStep (idx : Nat) (version : String) (e : SyncError) : SyncError :=
  .app ("同步第 " ++ toString (idx + 1) ++ " 条日志失败（SVN r" ++ version ++ "）："
    ++ e.display)

/-- The conflict error raised by `ensure_git_conflict_free`
(`src/sync.rs:180-182`). -/
def conflictError : SyncError :=
  .app "检测到 Git 冲突状态（如 UU/AA/DU），已停止后续同步"

/-- The commit message built at `src/sync.rs:161`: `format!("SVN: {}", &log.message)`. -/
def commitMessage (message : String) : String :=
  "SVN: " ++ message

/-- The trace of one fully successful loop iteration for `log`:
`update_to_rev`, then `ensure_git_conflict_free`'s `status` query, then
`git_commit_with_ops`'s `add_all` and `commit`. -/
def entryTrace (log : SvnLog) : List Event :=
  [.updateToRev log.version, .statusQuery, .addAll, .commit (commitMessage log.message)]

/-- The `for (idx, log) in svn_logs.iter().enumerate()` loop of
`run_with_options` (`src/sync.rs:134-172`), with `idx` the index of the
first remaining entry.  Each failing step returns the error wrapped by
`wrapStep` and stops the loop; a conflict detected by
`ensure_git_conflict_free` raises `conflictError` (then wrapped); a panic of
`has_conflict_entries` aborts the run as `RunResult.panic`. -/
def runEntries (env : SyncEnv) : List SvnLog → Nat → RunResult × List Event
  | [], _ => (.ok, [])
  | log :: rest, idx =>
    match env.updateResp idx with
    | .error e => (.err (wrapStep idx log.version e), [.updateToRev log.version])
    | .ok _ =>
      match env.statusResp idx with
      | .error e =>
        (.err (wrapStep idx log.version e), [.updateToRev log.version, .statusQuery])
      | .ok st =>
        match has_conflict_entries st with
        | none => (.panic, [.updateToRev log.version, .statusQuery])
        | some true =>
          (.err (wrapStep idx log.version conflictError),
            [.updateToRev log.version, .statusQuery])
        | some false =>
          match env.addAllResp idx with
          | .error e =>
            (.err (wrapStep idx log.version e),
              [.updateToRev log.version, .statusQuery, .addAll])
          | .ok _ =>
            match env.commitResp idx with
            | .error e =>
              (.err (wrapStep idx log.version e),
                [.updateToRev log.version, .statusQuery, .addAll,
                  .commit (commitMessage log.message)])
            | .ok _ =>
              let r := runEntries env rest (idx + 1)
              (r.1, entryTrace log ++ r.2)

/-- Method `SyncTool::run_with_options` (`src/sync.rs:112-175`): fetch the logs,
apply the limit, handle the empty / dry-run / declined-confirmation early
returns, run the loop, and on full success persist the history store. -/
def run_with_options (env : SyncEnv) (options : SyncRunOptions) :
    RunResult × List Event :=
  match env.logs with
  | .error e => (.err e, [.getLogs])
  | .ok fetched =>
    let svn_logs := limit_logs fetched options.limit
    if svn_logs.isEmpty then (.ok, [.getLogs])
    else if options.dry_run then
      (.ok, .getLogs :: svn_logs.map fun log => .preview log.version log.message)
    else if env.confirmAnswer svn_logs = false then
      (.ok, [.getLogs, .confirm svn_logs])
    else
      let r := runEntries env svn_logs 0
      match r.1 with
      | .ok =>
        (match env.saveResp with
          | .ok _ => .ok
          | .error e => .err e,
          [.getLogs, .confirm svn_logs] ++ r.2 ++ [.saveHistory])
      | other => (other, [.getLogs, .confirm svn_logs] ++ r.2)

/-- Method `SyncTool::run` (`src/sync.rs:107-109`). -/
def run (env : SyncEnv) : RunResult × List Event :=
  run_with_options env SyncRunOptions.default

end Svn2Git


namespace Svn2Git

/-! ## History records and the history manager

Embeds `HistoryRecord` (`src/config/reocrd.rs`) and the record-mutating
operations of `HistoryManager` (`src/config/manager.rs`).  Paths are modelled
as strings; the `chrono` UTC timestamp is modelled as a natural number (all
the code uses of `last_used` are comparison via `cmp_last_used` and equality,
which any linearly ordered, injectively serialised stamp supports). -/

/-- Structure `HistoryRecord` of `src/config/reocrd.rs`. -/
structure HistoryRecord where
  id : Nat
  svn_path : String
  git_path : String
  last_used : Nat
deriving DecidableEq, Repr

/-- Method `HistoryRecord::path_eq`: both paths equal. -/
def HistoryRecord.path_eq (r : HistoryRecord) (svn_path git_path : String) : Bool :=
  r.svn_path == svn_path && r.git_path == git_path

/-- The comparison `cmp_last_used` of `src/config/reocrd.rs:134-136`, as the
ordering relation it induces. -/
def lastUsedLE (a b : HistoryRecord) : Prop :=
  a.last_used ≤ b.last_used

instance : DecidableRel lastUsedLE :=
  fun a b => Nat.decLe a.last_used b.last_used

instance : IsTotal HistoryRecord lastUsedLE :=
  ⟨fun a b => Nat.le_total a.last_used b.last_used⟩

instance : IsTrans HistoryRecord lastUsedLE :=
  ⟨fun _ _ _ => Nat.le_trans⟩

/-- Model of `Vec::sort_by(cmp_last_used)` (`src/config/manager.rs:59`): a
stable sort ascending by `last_used`, realised as insertion sort (Rust's
`sort_by` is likewise stable, and stable sorts of the same list under the
same total preorder coincide). -/
def sortByLastUsed (l : List HistoryRecord) : List HistoryRecord :=
  l.insertionSort lastUsedLE

/-- Method `HistoryManager::add_record` (`src/config/manager.rs:53-60`):
drop every record with the same path pair, append a new record whose `id` is
the post-retain length plus one and whose `last_used` is the current time,
then re-sort by `last_used`. -/
def add_record (records : List HistoryRecord) (svn_path git_path : String)
    (now : Nat) : List HistoryRecord :=
  let kept := records.filter fun r => !(r.path_eq svn_path git_path)
  sortByLastUsed (kept ++ [⟨kept.length + 1, svn_path, git_path, now⟩])

deriving instance DecidableEq for Except

/-- Outcome of `HistoryManager::remove_record`: the returned `Result`, the
record list after the call, and the argument of the `storage.save` call when
one was made (`none` when the storage port was not invoked). -/
structure RemoveOutcome where
  result : Except SyncError Unit
  records : List HistoryRecord
  savedWith : Option (List HistoryRecord)
deriving DecidableEq, Repr

/-- Method `HistoryManager::remove_record` (`src/config/manager.rs:71-78`):
reject an out-of-range index with an application error, otherwise remove the
record at `index` and immediately persist through the storage port (whose
response is `saveResp`). -/
def remove_record (records : List HistoryRecord) (index : Nat)
    (saveResp : Except SyncError Unit) : RemoveOutcome :=
  if records.length ≤ index then
    ⟨.error (.app "索引超出范围"), records, none⟩
  else
    let remaining := records.eraseIdx index
    ⟨saveResp, remaining, some remaining⟩

/-- Number of records carrying exactly the given path pair. -/
def countPair (records : List HistoryRecord) (svn_path git_path : String) : Nat :=
  (records.filter fun r => r.path_eq svn_path git_path).length

/-! ## The in-memory Git backend

Embeds the simulated repository of `src/ops/mock_git.rs`.  The Rust
`HashMap<String, GitFileStatus>` is modelled as an association list (the
operations used by the claims only read it pointwise or fold over all
entries with order-independent results). -/

/-- Enum `GitFileStatus` of `src/ops/mock_git.rs`. -/
inductive GitFileStatus where
  | untracked
  | staged
  | committed
  | modified
deriving DecidableEq, Repr

/-- Structure `GitCommit` of `src/ops/mock_git.rs`. -/
structure GitCommit where
  hash : String
  message : String
  timestamp : String
  files : List String
deriving DecidableEq, Repr

/-- Structure `MockGitRepo` of `src/ops/mock_git.rs` (`inited` models the
`initialized` flag). -/
structure MockGitRepo where
  files : List (String × GitFileStatus)
  commits : List GitCommit
  inited : Bool
  branch : String
deriving DecidableEq, Repr

/-- Method `MockGitRepo::is_working_directory_clean`
(`src/ops/mock_git.rs:202-206`): every tracked file is `Committed`. -/
def is_working_directory_clean (repo : MockGitRepo) : Bool :=
  repo.files.all fun f => decide (f.2 = .committed)

/-- The fixed placeholder listing returned by `MockGitOperations::status`
when the repository is not clean (`src/ops/mock_git.rs:388`). -/
def mockStatusPlaceholder : List Char :=
  "?? some_untracked_file.txt\nM some_modified_file.txt".data

/-- Method `MockGitOperations::status` (`src/ops/mock_git.rs:382-390`):
empty output on a clean repository, a fixed placeholder listing otherwise.
(The `Result` wrapper is omitted: the Rust implementation is infallible.) -/
def mockStatus (repo : MockGitRepo) : List Char :=
  if is_working_directory_clean repo then [] else mockStatusPlaceholder

end Svn2Git

namespace Svn2Git

/-! ## Persistence: `DiskStorage` and the JSON codec

`DiskStorage` (`src/config/disk.rs`) reads and writes the history file:
`load` returns an empty collection when the file does not exist and
otherwise decodes the bytes with `serde_json::from_slice`; `save` encodes
with `serde_json::to_vec` and overwrites the file.  The backing file is
modelled as `Option (List Char)` (`none` = file absent).

The `serde_json` codec itself is external-crate code, modelled here for the
concrete type it is applied to: the spec (section 6, persisted state)
describes the payload as "a JSON array of history records, each
`{id, svn_path, git_path, last_used}`".  The encoder below produces exactly
serde_json's compact output for that shape — `[` record `,` ... `]`, each
record an object with the four keys in declaration order, strings escaped as
serde_json escapes them — and the decoder parses that grammar.  The
abstracted timestamp (a natural number, see `HistoryRecord`) is serialised
as a JSON number; chrono's RFC-3339 string serialisation is likewise
injective and round-trips, so the abstraction is sound for the round-trip
claim. -/

/-- Decimal digit character for a value below ten. -/
def digitChar10 (d : Nat) : Char :=
  "0123456789".data.getD d '0'

/-- Is this one of the ten decimal digit characters? -/
def isDigit10 (c : Char) : Bool :=
  "0123456789".data.contains c

/-- Numeric value of a decimal digit character (`0` on other input). -/
def digitVal (c : Char) : Nat :=
  if c = '1' then 1 else if c = '2' then 2 else if c = '3' then 3
  else if c = '4' then 4 else if c = '5' then 5 else if c = '6' then 6
  else if c = '7' then 7 else if c = '8' then 8 else if c = '9' then 9
  else 0

/-- Decimal digit string of a natural number, most significant digit
first (the output of Rust's `Display` for an unsigned integer, which is what
serde_json emits for a number). -/
def natDigits (n : Nat) : List Char :=
  if _h : n < 10 then [digitChar10 n]
  else natDigits (n / 10) ++ [digitChar10 (n % 10)]
decreasing_by exact Nat.div_lt_self (by omega) (by omega)

/-- Accumulating decimal evaluation of a digit string. -/
def digitsValGo (acc : Nat) : List Char → Nat
  | [] => acc
  | c :: cs => digitsValGo (acc * 10 + digitVal c) cs

/-- Decimal value of a digit string. -/
def digitsVal (l : List Char) : Nat :=
  digitsValGo 0 l

/-- Lowercase hexadecimal digit character for a value below sixteen. -/
def hexDigit (d : Nat) : Char :=
  "0123456789abcdef".data.getD d '0'

/-- Numeric value of a hexadecimal digit character, `none` on other input. -/
def hexVal? (c : Char) : Option Nat :=
  if c = '0' then some 0 else if c = '1' then some 1 else if c = '2' then some 2
  else if c = '3' then some 3 else if c = '4' then some 4 else if c = '5' then some 5
  else if c = '6' then some 6 else if c = '7' then some 7 else if c = '8' then some 8
  else if c = '9' then some 9 else if c = 'a' then some 10 else if c = 'b' then some 11
  else if c = 'c' then some 12 else if c = 'd' then some 13 else if c = 'e' then some 14
  else if c = 'f' then some 15 else none

/-- The backspace control character (U+0008). -/
def backspaceChar : Char := Char.ofNat 8

/-- The form-feed control character (U+000C). -/
def formFeedChar : Char := Char.ofNat 12

/-- JSON escaping of one character, exactly as serde_json performs it:
quote and backslash get two-character escapes, the five named control
characters get their short escapes, the remaining control characters get
`\u00XX` with lowercase hex, and everything else is emitted unchanged. -/
def escapeChar (c : Char) : List Char :=
  if c = '"' then ['\\', '"']
  else if c = '\\' then ['\\', '\\']
  else if c = backspaceChar then ['\\', 'b']
  else if c = '\t' then ['\\', 't']
  else if c = '\n' then ['\\', 'n']
  else if c = formFeedChar then ['\\', 'f']
  else if c = '\r' then ['\\', 'r']
  else if c.toNat < 0x20 then
    ['\\', 'u', '0', '0', hexDigit (c.toNat / 16), hexDigit (c.toNat % 16)]
  else [c]

/-- JSON escaping of a whole string. -/
def escapeString (s : List Char) : List Char :=
  s.flatMap escapeChar

/-- Prepend a decoded character to a string-parse result. -/
def consParsed (c : Char) :
    Option (List Char × List Char) → Option (List Char × List Char)
  | none => none
  | some (s, rest) => some (c :: s, rest)

/-- Decode the four hex digits of a `\uXXXX` escape, returning the decoded
character and the remaining input. -/
def decodeUnicodeEscape : List Char → Option (Char × List Char)
  | h1 :: h2 :: h3 :: h4 :: rest =>
    (match hexVal? h1, hexVal? h2, hexVal? h3, hexVal? h4 with
      | some v1, some v2, some v3, some v4 =>
        some (Char.ofNat (((v1 * 16 + v2) * 16 + v3) * 16 + v4), rest)
      | _, _, _, _ => none)
  | _ => none

/-- Decode one escape sequence (the part after the backslash): the
two-character escapes of the JSON grammar, or `u` followed by four hex
digits. -/
def decodeEscape : List Char → Option (Char × List Char)
  | [] => none
  | e :: rest =>
    if e = '"' then some ('"', rest)
    else if e = '\\' then some ('\\', rest)
    else if e = '/' then some ('/', rest)
    else if e = 'b' then some (backspaceChar, rest)
    else if e = 't' then some ('\t', rest)
    else if e = 'n' then some ('\n', rest)
    else if e = 'f' then some (formFeedChar, rest)
    else if e = 'r' then some ('\r', rest)
    else if e = 'u' then decodeUnicodeEscape rest
    else none

/-- Parse a JSON string body up to and including the closing quote,
returning the decoded content and the remaining input.  Handles exactly the
escapes of the JSON grammar; a raw control character or a malformed escape
is rejected, as serde_json rejects it.  `fuel` bounds the recursion: one
unit is consumed per decoded character, so any fuel of at least the input
length gives the parser's full semantics (`parseRecord` passes the input
length). -/
def parseStringBody : Nat → List Char → Option (List Char × List Char)
  | _, [] => none
  | 0, _ :: _ => none
  | fuel + 1, c :: rest =>
    if c = '"' then some ([], rest)
    else if c = '\\' then
      match decodeEscape rest with
      | none => none
      | some (d, rest2) => consParsed d (parseStringBody fuel rest2)
    else if c.toNat < 0x20 then none
    else consParsed c (parseStringBody fuel rest)

/-- Strip an expected literal fragment from the front of the input. -/
def dropLead? : List Char → List Char → Option (List Char)
  | [], s => some s
  | _ :: _, [] => none
  | p :: ps, c :: cs => if p = c then dropLead? ps cs else none

/-- Parse a leading decimal number (a nonempty maximal digit run). -/
def parseNatLead (s : List Char) : Option (Nat × List Char) :=
  match s.takeWhile isDigit10 with
  | [] => none
  | digs => some (digitsVal digs, s.dropWhile isDigit10)

/-- Literal fragment opening a record object up to the `id` value
(`\x7b"id":` — serde_json emits the four fields in declaration order,
compactly). -/
def jId : List Char := "\x7b\"id\":".data

/-- Literal fragment between the `id` value and the `svn_path` string
content (ends with the string's opening quote). -/
def jSvn : List Char := ",\"svn_path\":\"".data

/-- Literal fragment between the `svn_path` string and the `git_path`
string content (the closing quote of the previous string is consumed by
`parseStringBody`). -/
def jGit : List Char := ",\"git_path\":\"".data

/-- Literal fragment between the `git_path` string and the `last_used`
value. -/
def jLast : List Char := ",\"last_used\":".data

/-- Literal fragment closing a record object (`\x7d`). -/
def jEnd : List Char := "\x7d".data

/-- Compact serde_json encoding of one `HistoryRecord`. -/
def encodeRecord (r : HistoryRecord) : List Char :=
  jId ++ natDigits r.id ++ jSvn ++ escapeString r.svn_path.data ++ ['"']
    ++ jGit ++ escapeString r.git_path.data ++ ['"']
    ++ jLast ++ natDigits r.last_used ++ jEnd

/-- Parse one record object, returning it and the remaining input. -/
def parseRecord (s : List Char) : Option (HistoryRecord × List Char) :=
  match dropLead? jId s with
  | none => none
  | some s =>
    match parseNatLead s with
    | none => none
    | some (id, s) =>
      match dropLead? jSvn s with
      | none => none
      | some s =>
        match parseStringBody s.length s with
        | none => none
        | some (svn, s) =>
          match dropLead? jGit s with
          | none => none
          | some s =>
            match parseStringBody s.length s with
            | none => none
            | some (git, s) =>
              match dropLead? jLast s with
              | none => none
              | some s =>
                match parseNatLead s with
                | none => none
                | some (lu, s) =>
                  match dropLead? jEnd s with
                  | none => none
                  | some s => some (⟨id, String.mk svn, String.mk git, lu⟩, s)

/-- Model of `serde_json::to_vec` on a `Vec<HistoryRecord>`: the compact
JSON array of the encoded records. -/
def to_vec (records : List HistoryRecord) : List Char :=
  match records with
  | [] => "[]".data
  | r :: rs =>
    '[' :: (encodeRecord r ++ rs.flatMap (fun x => ',' :: encodeRecord x) ++ [']'])

/-- Parse a nonempty comma-separated record sequence terminated by `]` at
the very end of the input.  `fuel` bounds the recursion; it only needs to be
at least the number of separators. -/
def parseRecSeq : Nat → List Char → Option (List HistoryRecord)
  | fuel, s =>
    match parseRecord s with
    | none => none
    | some (r, rest) =>
      match rest with
      | [] => none
      | c :: rest2 =>
        if c = ']' then
          if rest2 = [] then some [r] else none
        else if c = ',' then
          match fuel with
          | 0 => none
          | fuel2 + 1 => (parseRecSeq fuel2 rest2).map (r :: ·)
        else none

/-- Parse what follows the opening bracket: an immediately closed empty
array, or a nonempty record sequence. -/
def fromSliceBody : List Char → Option (List HistoryRecord)
  | [] => none
  | c2 :: rest2 =>
    if c2 = ']' then
      if rest2 = [] then some [] else none
    else parseRecSeq (c2 :: rest2).length (c2 :: rest2)

/-- Model of `serde_json::from_slice` for a `Vec<HistoryRecord>` restricted
to the array grammar above. -/
def from_slice (s : List Char) : Option (List HistoryRecord) :=
  match s with
  | [] => none
  | c :: rest => if c = '[' then fromSliceBody rest else none

/-- Method `DiskStorage::load` (`src/config/disk.rs:21-28`): a missing file
yields an empty collection, otherwise the bytes are decoded (a decode
failure is the `Json` error variant). -/
def DiskStorage.load (file : Option (List Char)) :
    Except SyncError (List HistoryRecord) :=
  match file with
  | none => .ok []
  | some buf =>
    match from_slice buf with
    | some records => .ok records
    | none => .error (.json "invalid history file")

/-- Method `DiskStorage::save` (`src/config/disk.rs:30-37`): encode and
overwrite; the result is the new state of the backing file (parent-directory
creation has no observable effect on the file contents). -/
def DiskStorage.save (records : List HistoryRecord) : Option (List Char) :=
  some (to_vec records)

end Svn2Git

namespace Svn2Git

/-! ## Orchestrator lemmas -/

/-- A loop index at which every per-entry operation succeeds and the status
scan finds no conflict. -/
def cleanStep (env : SyncEnv) (i : Nat) : Prop :=
  env.updateResp i = .ok () ∧
  (∃ st, env.statusResp i = .ok st ∧ has_conflict_entries st = some false) ∧
  env.addAllResp i = .ok () ∧ env.commitResp i = .ok ()

/-- Events of the backend-facing kinds a dry run must not produce. -/
def isBackendCall : Event → Bool
  | .updateToRev _ => true
  | .statusQuery => true
  | .addAll => true
  | .commit _ => true
  | .confirm _ => true
  | .saveHistory => true
  | _ => false

/-- Events of the mutating kinds a declined confirmation must not produce. -/
def isMutation : Event → Bool
  | .updateToRev _ => true
  | .addAll => true
  | .commit _ => true
  | .saveHistory => true
  | _ => false

/-- Running the loop over a prefix of clean steps prepends the clean trace
of that prefix and continues at the shifted index. -/
theorem runEntries_clean_of_prefix (env : SyncEnv) (pre rest : List SvnLog)
    (idx : Nat) (h : ∀ j, j < pre.length → cleanStep env (idx + j)) :
    runEntries env (pre ++ rest) idx =
      ((runEntries env rest (idx + pre.length)).1,
        pre.flatMap entryTrace ++ (runEntries env rest (idx + pre.length)).2) := by
  induction pre generalizing idx with
  | nil => simp
  | cons hd tl ih =>
    obtain ⟨h1, ⟨st, h2, h3⟩, h4, h5⟩ := by simpa using h 0 (Nat.succ_pos _)
    have ihx := ih (idx + 1) (fun j hj => by
      have := h (j + 1) (by simp only [List.length_cons]; omega)
      simpa [Nat.add_assoc, Nat.add_comm 1 j] using this)
    have hlen : idx + (hd :: tl).length = (idx + 1) + tl.length := by
      simp only [List.length_cons]; omega
    rw [hlen]
    simp [runEntries, h1, h2, h3, h4, h5, ihx, entryTrace]

end Svn2Git

namespace Svn2Git

/-- Two-entry log list used by the concrete witnesses. -/
def demoLogs : List SvnLog := [⟨"1", "m1"⟩, ⟨"2", "m2"⟩]

/-- A fully successful environment: two log entries, confirmation granted,
every operation succeeds, statuses conflict-free. -/
def cleanEnv : SyncEnv where
  logs := .ok demoLogs
  confirmAnswer := fun _ => true
  updateResp := fun _ => .ok ()
  statusResp := fun _ => .ok "?? a.txt".data
  addAllResp := fun _ => .ok ()
  commitResp := fun _ => .ok ()
  saveResp := .ok ()

/-- Like `cleanEnv`, but the operator declines the confirmation. -/
def declineEnv : SyncEnv where
  logs := .ok demoLogs
  confirmAnswer := fun _ => false
  updateResp := fun _ => .ok ()
  statusResp := fun _ => .ok "?? a.txt".data
  addAllResp := fun _ => .ok ()
  commitResp := fun _ => .ok ()
  saveResp := .ok ()

/-- C2: with a fetched log sequence and any limit, a confirmed and fully
clean run processes exactly the first `min(N, L)` entries (all `L` when the
limit is absent) in the order the SVN abstraction returned them, issuing for
each processed entry an update to that entry's revision followed by a commit
whose message is `"SVN: "` prepended to the entry's message, and the
truncation is an order-preserving prefix of length `min(N, L)`. -/
theorem c2_limit_order (env : SyncEnv) (fetched : List SvnLog) (lim : Option Nat)
    (hlogs : env.logs = .ok fetched)
    (hne : limit_logs fetched lim ≠ [])
    (hconfirm : env.confirmAnswer (limit_logs fetched lim) = true)
    (hclean : ∀ j, j < (limit_logs fetched lim).length → cleanStep env j)
    (hsave : env.saveResp = .ok ()) :
    run_with_options env ⟨false, lim⟩ =
      (.ok, [.getLogs, .confirm (limit_logs fetched lim)]
        ++ (limit_logs fetched lim).flatMap entryTrace ++ [.saveHistory]) ∧
    (∀ n, (limit_logs fetched (some n)).length = min n fetched.length) ∧
    limit_logs fetched none = fetched ∧
    (∃ k, limit_logs fetched lim = fetched.take k) := by
  refine ⟨?_, ?_, ?_, ?_⟩
  · have hloop := runEntries_clean_of_prefix env (limit_logs fetched lim) [] 0
      (by simpa using hclean)
    simp only [List.append_nil, runEntries, Nat.zero_add] at hloop
    unfold run_with_options
    rw [hlogs]
    simp [List.isEmpty_iff, hne, hconfirm, hloop, hsave]
  · intro n; simp [limit_logs]
  · rfl
  · cases lim with
    | none => exact ⟨fetched.length, by simp [limit_logs]⟩
    | some n => exact ⟨n, rfl⟩

/-- Concrete instance of `c2_limit_order`: a limit of five on two entries
processes both in order. -/
theorem c2_limit_order_witness :
    run_with_options cleanEnv ⟨false, some 5⟩ =
      (.ok, [.getLogs, .confirm (limit_logs demoLogs (some 5))]
        ++ (limit_logs demoLogs (some 5)).flatMap entryTrace ++ [.saveHistory]) ∧
    (∀ n, (limit_logs demoLogs (some n)).length = min n demoLogs.length) ∧
    limit_logs demoLogs none = demoLogs ∧
    (∃ k, limit_logs demoLogs (some 5) = demoLogs.take k) :=
  c2_limit_order cleanEnv demoLogs (some 5) rfl (by decide) rfl
    (fun _ _ => ⟨rfl, ⟨_, rfl, by decide⟩, rfl, rfl⟩) rfl

/-- C3: a dry run over a non-empty pending sequence succeeds, its trace is
the log fetch followed by one preview line per pending entry, and it
contains no update, status, stage, commit, confirmation or history-save
call. -/
theorem c3_dry_run_frame (env : SyncEnv) (fetched : List SvnLog)
    (opts : SyncRunOptions)
    (hlogs : env.logs = .ok fetched)
    (hne : limit_logs fetched opts.limit ≠ [])
    (hdry : opts.dry_run = true) :
    run_with_options env opts =
      (.ok, .getLogs :: (limit_logs fetched opts.limit).map fun log =>
        .preview log.version log.message) ∧
    (run_with_options env opts).2.filter isBackendCall = [] := by
  have h1 : run_with_options env opts =
      (.ok, .getLogs :: (limit_logs fetched opts.limit).map fun log =>
        .preview log.version log.message) := by
    unfold run_with_options
    rw [hlogs]
    simp [List.isEmpty_iff, hne, hdry]
  refine ⟨h1, ?_⟩
  rw [h1]
  simp [List.filter_map, isBackendCall, Function.comp]

/-- Concrete instance of `c3_dry_run_frame` on the two-entry environment. -/
theorem c3_dry_run_frame_witness :
    run_with_options cleanEnv ⟨true, none⟩ =
      (.ok, .getLogs :: (limit_logs demoLogs none).map fun log =>
        .preview log.version log.message) ∧
    (run_with_options cleanEnv ⟨true, none⟩).2.filter isBackendCall = [] :=
  c3_dry_run_frame cleanEnv demoLogs ⟨true, none⟩ rfl (by decide) rfl

/-- C5: when the operator declines the confirmation of a non-empty pending
sequence in a non-dry run, the run succeeds and its trace is only the log
fetch and the confirmation; in particular there is no update, stage, commit
or history-save call. -/
theorem c5_decline_zero_mutation (env : SyncEnv) (fetched : List SvnLog)
    (lim : Option Nat)
    (hlogs : env.logs = .ok fetched)
    (hne : limit_logs fetched lim ≠ [])
    (hconfirm : env.confirmAnswer (limit_logs fetched lim) = false) :
    run_with_options env ⟨false, lim⟩ =
      (.ok, [.getLogs, .confirm (limit_logs fetched lim)]) ∧
    (run_with_options env ⟨false, lim⟩).2.filter isMutation = [] := by
  have h1 : run_with_options env ⟨false, lim⟩ =
      (.ok, [.getLogs, .confirm (limit_logs fetched lim)]) := by
    unfold run_with_options
    rw [hlogs]
    simp [List.isEmpty_iff, hne, hconfirm]
  refine ⟨h1, ?_⟩
  rw [h1]
  simp [isMutation]

/-- Concrete instance of `c5_decline_zero_mutation` on the declining
environment. -/
theorem c5_decline_zero_mutation_witness :
    run_with_options declineEnv ⟨false, none⟩ =
      (.ok, [.getLogs, .confirm (limit_logs demoLogs none)]) ∧
    (run_with_options declineEnv ⟨false, none⟩).2.filter isMutation = [] :=
  c5_decline_zero_mutation declineEnv demoLogs none rfl (by decide) rfl

end Svn2Git

namespace Svn2Git

/-- The step of an entry's processing at which the first failure occurs. -/
inductive FailMode where
  | update
  | statusCall
  | conflict
  | stage
  | commitCall
deriving DecidableEq, Repr

/-- The environment exhibits failure mode `m` with underlying error `e` at
loop index `i` (the steps before the failing one succeed). -/
def failsAt (env : SyncEnv) (i : Nat) (m : FailMode) (e : SyncError) : Prop :=
  match m with
  | .update => env.updateResp i = .error e
  | .statusCall => env.updateResp i = .ok () ∧ env.statusResp i = .error e
  | .conflict => env.updateResp i = .ok () ∧
      (∃ st, env.statusResp i = .ok st ∧ has_conflict_entries st = some true) ∧
      e = conflictError
  | .stage => env.updateResp i = .ok () ∧
      (∃ st, env.statusResp i = .ok st ∧ has_conflict_entries st = some false) ∧
      env.addAllResp i = .error e
  | .commitCall => env.updateResp i = .ok () ∧
      (∃ st, env.statusResp i = .ok st ∧ has_conflict_entries st = some false) ∧
      env.addAllResp i = .ok () ∧ env.commitResp i = .error e

/-- The calls issued for the entry at which mode `m` strikes. -/
def failTrace (m : FailMode) (log : SvnLog) : List Event :=
  match m with
  | .update => [.updateToRev log.version]
  | .statusCall => [.updateToRev log.version, .statusQuery]
  | .conflict => [.updateToRev log.version, .statusQuery]
  | .stage => [.updateToRev log.version, .statusQuery, .addAll]
  | .commitCall => [.updateToRev log.version, .statusQuery, .addAll,
      .commit (commitMessage log.message)]

/-- Commit-call events. -/
def isCommitEvent : Event → Bool
  | .commit _ => true
  | _ => false

/-- Stage-all events. -/
def isAddAllEvent : Event → Bool
  | .addAll => true
  | _ => false

/-- A failing head entry stops the loop with the wrapped error and only the
calls up to the failing step. -/
theorem runEntries_fail_head (env : SyncEnv) (log : SvnLog) (rest : List SvnLog)
    (idx : Nat) (m : FailMode) (e : SyncError) (h : failsAt env idx m e) :
    runEntries env (log :: rest) idx =
      (.err (wrapStep idx log.version e), failTrace m log) := by
  cases m with
  | update => simp [failsAt] at h; simp [runEntries, h, failTrace]
  | statusCall =>
    obtain ⟨h1, h2⟩ := h
    simp [runEntries, h1, h2, failTrace]
  | conflict =>
    obtain ⟨h1, ⟨st, h2, h3⟩, h4⟩ := h
    subst h4
    simp [runEntries, h1, h2, h3, failTrace]
  | stage =>
    obtain ⟨h1, ⟨st, h2, h3⟩, h4⟩ := h
    simp [runEntries, h1, h2, h3, h4, failTrace]
  | commitCall =>
    obtain ⟨h1, ⟨st, h2, h3⟩, h4, h5⟩ := h
    simp [runEntries, h1, h2, h3, h4, h5, failTrace]

/-- Commit calls inside a clean-prefix trace: exactly one per entry, in
order, with the `"SVN: "`-prefixed message. -/
theorem filter_commit_flatMap (l : List SvnLog) :
    (l.flatMap entryTrace).filter isCommitEvent =
      l.map fun log => .commit (commitMessage log.message) := by
  induction l with
  | nil => rfl
  | cons hd tl ih => simp [entryTrace, isCommitEvent, ih]

/-- Stage-all calls inside a clean-prefix trace: exactly one per entry. -/
theorem filter_addAll_flatMap (l : List SvnLog) :
    (l.flatMap entryTrace).filter isAddAllEvent =
      List.replicate l.length .addAll := by
  induction l with
  | nil => rfl
  | cons hd tl ih => simp [entryTrace, isAddAllEvent, ih, List.replicate_succ]

/-- A confirmed run whose first `i` steps are clean and which fails at step
`i` in mode `m`: shared backbone of the per-entry failure claims. -/
theorem run_fails_at (env : SyncEnv) (fetched : List SvnLog) (lim : Option Nat)
    (i : Nat) (m : FailMode) (e : SyncError)
    (hlogs : env.logs = .ok fetched)
    (hconfirm : env.confirmAnswer (limit_logs fetched lim) = true)
    (hi : i < (limit_logs fetched lim).length)
    (hclean : ∀ j, j < i → cleanStep env j)
    (hfail : failsAt env i m e) :
    run_with_options env ⟨false, lim⟩ =
      (.err (wrapStep i ((limit_logs fetched lim).get ⟨i, hi⟩).version e),
        [.getLogs, .confirm (limit_logs fetched lim)]
          ++ ((limit_logs fetched lim).take i).flatMap entryTrace
          ++ failTrace m ((limit_logs fetched lim).get ⟨i, hi⟩)) := by
  have hne : limit_logs fetched lim ≠ [] := by
    intro hnil; rw [hnil] at hi; simp at hi
  have htklen : ((limit_logs fetched lim).take i).length = i := by
    rw [List.length_take]; omega
  have hcons : (limit_logs fetched lim).take i
      ++ ((limit_logs fetched lim).get ⟨i, hi⟩ :: (limit_logs fetched lim).drop (i + 1))
      = limit_logs fetched lim := by
    rw [List.get_eq_getElem, List.getElem_cons_drop]; exact List.take_append_drop i _
  have hloop := runEntries_clean_of_prefix env ((limit_logs fetched lim).take i)
    (((limit_logs fetched lim).get ⟨i, hi⟩) :: (limit_logs fetched lim).drop (i + 1)) 0
    (by intro j hj; rw [htklen] at hj; simpa using hclean j hj)
  rw [hcons, htklen] at hloop
  simp only [Nat.zero_add] at hloop
  have hhead := runEntries_fail_head env ((limit_logs fetched lim).get ⟨i, hi⟩)
    ((limit_logs fetched lim).drop (i + 1)) i m e hfail
  rw [hhead] at hloop
  unfold run_with_options
  rw [hlogs]
  simp [List.isEmpty_iff, hne, hconfirm, hloop]

end Svn2Git

namespace Svn2Git

/-- Like `cleanEnv`, but the second update-to-revision call fails. -/
def failEnv : SyncEnv where
  logs := .ok demoLogs
  confirmAnswer := fun _ => true
  updateResp := fun n => if n = 1 then .error (.app "svn update failed") else .ok ()
  statusResp := fun _ => .ok "?? a.txt".data
  addAllResp := fun _ => .ok ()
  commitResp := fun _ => .ok ()
  saveResp := .ok ()

/-- C4: when processing of entry `i` fails — at update-to-revision, at the
conflict check, or at the stage/commit step — the run returns that entry's
error wrapped with the 1-indexed step number (`wrapStep i` renders `i + 1`)
and the entry's revision, the loop stops at that entry (the trace ends with
the failing entry's calls: no retry, no skip, nothing for later entries),
the commit calls already made for the earlier entries remain in the trace in
order, and no history-save call is made. -/
theorem c4_step_failure_wraps_and_aborts (env : SyncEnv) (fetched : List SvnLog)
    (lim : Option Nat) (i : Nat) (m : FailMode) (e : SyncError)
    (hlogs : env.logs = .ok fetched)
    (hconfirm : env.confirmAnswer (limit_logs fetched lim) = true)
    (hi : i < (limit_logs fetched lim).length)
    (hclean : ∀ j, j < i → cleanStep env j)
    (hfail : failsAt env i m e) :
    run_with_options env ⟨false, lim⟩ =
      (.err (wrapStep i ((limit_logs fetched lim).get ⟨i, hi⟩).version e),
        [.getLogs, .confirm (limit_logs fetched lim)]
          ++ ((limit_logs fetched lim).take i).flatMap entryTrace
          ++ failTrace m ((limit_logs fetched lim).get ⟨i, hi⟩)) ∧
    Event.saveHistory ∉ (run_with_options env ⟨false, lim⟩).2 ∧
    (run_with_options env ⟨false, lim⟩).2.filter isCommitEvent =
      (((limit_logs fetched lim).take i).map fun log =>
        Event.commit (commitMessage log.message))
        ++ (failTrace m ((limit_logs fetched lim).get ⟨i, hi⟩)).filter
            isCommitEvent := by
  have h1 := run_fails_at env fetched lim i m e hlogs hconfirm hi hclean hfail
  refine ⟨h1, ?_, ?_⟩
  · rw [h1]
    cases m <;>
      simp [failTrace, entryTrace, List.mem_flatMap, List.mem_append]
  · rw [h1]
    simp only [List.append_assoc, List.filter_append, filter_commit_flatMap]
    simp [isCommitEvent]

/-- Concrete instance of `c4_step_failure_wraps_and_aborts`: the second
update fails, the first entry's commit is retained, nothing is saved. -/
theorem c4_step_failure_witness :
    run_with_options failEnv ⟨false, none⟩ =
      (.err (wrapStep 1 ((limit_logs demoLogs none).get ⟨1, by decide⟩).version
          (.app "svn update failed")),
        [.getLogs, .confirm (limit_logs demoLogs none)]
          ++ ((limit_logs demoLogs none).take 1).flatMap entryTrace
          ++ failTrace .update ((limit_logs demoLogs none).get ⟨1, by decide⟩)) ∧
    Event.saveHistory ∉ (run_with_options failEnv ⟨false, none⟩).2 ∧
    (run_with_options failEnv ⟨false, none⟩).2.filter isCommitEvent =
      (((limit_logs demoLogs none).take 1).map fun log =>
        Event.commit (commitMessage log.message))
        ++ (failTrace .update ((limit_logs demoLogs none).get ⟨1, by decide⟩)).filter
            isCommitEvent :=
  c4_step_failure_wraps_and_aborts failEnv demoLogs none 1 .update
    (.app "svn update failed") rfl rfl (by decide)
    (fun j hj => by
      have hj0 : j = 0 := by omega
      subst hj0
      exact ⟨rfl, ⟨_, rfl, by decide⟩, rfl, rfl⟩)
    rfl

end Svn2Git

namespace Svn2Git

/-- A two-element `take` determines the first two elements. -/
theorem take2_eq_cons (line : List Char) (a b : Char)
    (h : line.take 2 = [a, b]) : ∃ rest, line = a :: b :: rest := by
  match line, h with
  | x :: y :: rest, h =>
    simp only [List.take] at h
    obtain ⟨rfl, rfl⟩ : x = a ∧ y = b := by
      injection h with h1 h2
      injection h2 with h3 _
      exact ⟨h1, h3⟩
    exact ⟨rest, rfl⟩

/-- The conflict scan of one line whose first two characters are single-byte. -/
theorem lineConflict_cons2 (a b : Char) (rest : List Char)
    (ha : utf8Len a = 1) (hb : utf8Len b = 1) :
    lineConflict (a :: b :: rest) = some (conflictPrefixes.contains [a, b]) := by
  have hlen : ¬ byteLen (a :: b :: rest) < 2 := by
    simp only [byteLen, List.map_cons, List.sum_cons, ha, hb]
    omega
  simp [lineConflict, hlen, sliceFirstTwoBytes, ha, hb]

/-- A line whose first two characters form a conflict code is reported as a
conflict by the per-line scan (the codes are ASCII, so the byte slice is on
a character boundary). -/
theorem lineConflict_of_conflict_code (line : List Char)
    (h : conflictPrefixes.contains (line.take 2) = true) :
    lineConflict line = some true := by
  have hm : line.take 2 ∈ conflictPrefixes := by simpa using h
  simp only [conflictPrefixes, List.mem_cons, List.not_mem_nil, or_false] at hm
  rcases hm with h2 | h2 | h2 | h2 | h2 | h2 | h2 <;>
    (obtain ⟨rest, rfl⟩ := take2_eq_cons _ _ _ h2 ;
     rw [lineConflict_cons2 _ _ _ (by decide) (by decide)] ;
     decide)

/-- If some line is reported as a conflict and the scan does not panic, the
scan result is `some true`. -/
theorem anyLineConflict_some_true (lines : List (List Char))
    (h : ∃ l ∈ lines, lineConflict l = some true)
    (hs : anyLineConflict lines ≠ none) :
    anyLineConflict lines = some true := by
  induction lines with
  | nil => simp at h
  | cons hd tl ih =>
    obtain ⟨l, hmem, hl⟩ := h
    cases hhd : lineConflict hd with
    | none => exact absurd (by simp [anyLineConflict, hhd]) hs
    | some b =>
      cases b with
      | true => simp [anyLineConflict, hhd]
      | false =>
        have hltl : l ∈ tl := by
          rcases List.mem_cons.mp hmem with rfl | htl
          · rw [hl] at hhd; cases hhd
          · exact htl
        have hs2 : anyLineConflict tl ≠ none := by
          intro hnone; exact hs (by simp [anyLineConflict, hhd, hnone])
        have := ih ⟨l, hltl, hl⟩ hs2
        simp [anyLineConflict, hhd, this]

end Svn2Git

namespace Svn2Git

/-- Like `cleanEnv`, but every status query reports a merge conflict. -/
def conflictEnv : SyncEnv where
  logs := .ok demoLogs
  confirmAnswer := fun _ => true
  updateResp := fun _ => .ok ()
  statusResp := fun _ => .ok "UU conflict.txt".data
  addAllResp := fun _ => .ok ()
  commitResp := fun _ => .ok ()
  saveResp := .ok ()

/-- One entry; the status reported for it starts with a line that makes the
byte slice of `has_conflict_entries` panic, followed by a `UU` conflict
line. -/
def conflictPanicEnv : SyncEnv where
  logs := .ok [⟨"1", "m1"⟩]
  confirmAnswer := fun _ => true
  updateResp := fun _ => .ok ()
  statusResp := fun _ => .ok "中中\nUU f".data
  addAllResp := fun _ => .ok ()
  commitResp := fun _ => .ok ()
  saveResp := .ok ()

/-- C1 (amended): if the status string returned while processing entry `i`
has a line whose first two characters are one of the conflict codes
`DD AU UD UA DU AA UU`, and the conflict scan does not panic on an earlier
line of that status, then the run aborts at that entry with the distinct
conflict error (wrapped with the step context) right after the status query,
and no stage-all call is made for that entry: the trace carries exactly one
stage-all per fully processed earlier entry and none for entry `i`. -/
theorem c1_conflict_error_before_stage (env : SyncEnv) (fetched : List SvnLog)
    (lim : Option Nat) (i : Nat) (st : List Char)
    (hlogs : env.logs = .ok fetched)
    (hconfirm : env.confirmAnswer (limit_logs fetched lim) = true)
    (hi : i < (limit_logs fetched lim).length)
    (hclean : ∀ j, j < i → cleanStep env j)
    (hupd : env.updateResp i = .ok ())
    (hst : env.statusResp i = .ok st)
    (hline : ∃ line ∈ rustLines st, conflictPrefixes.contains (line.take 2) = true)
    (hnopanic : has_conflict_entries st ≠ none) :
    run_with_options env ⟨false, lim⟩ =
      (.err (wrapStep i ((limit_logs fetched lim).get ⟨i, hi⟩).version conflictError),
        [.getLogs, .confirm (limit_logs fetched lim)]
          ++ ((limit_logs fetched lim).take i).flatMap entryTrace
          ++ [.updateToRev ((limit_logs fetched lim).get ⟨i, hi⟩).version,
              .statusQuery]) ∧
    (run_with_options env ⟨false, lim⟩).2.filter isAddAllEvent =
      List.replicate i .addAll := by
  have hconf : has_conflict_entries st = some true := by
    obtain ⟨line, hmem, hcode⟩ := hline
    exact anyLineConflict_some_true _
      ⟨line, hmem, lineConflict_of_conflict_code _ hcode⟩ hnopanic
  have h1 := run_fails_at env fetched lim i .conflict conflictError hlogs hconfirm
    hi hclean ⟨hupd, ⟨st, hst, hconf⟩, rfl⟩
  have htklen : ((limit_logs fetched lim).take i).length = i := by
    rw [List.length_take]; omega
  constructor
  · simpa [failTrace] using h1
  · rw [h1]
    simp only [List.append_assoc, List.filter_append, filter_addAll_flatMap, htklen]
    simp [failTrace, isAddAllEvent]

/-- Concrete instance of `c1_conflict_error_before_stage`: a `UU` status on
the first entry aborts with the conflict error and no stage-all call. -/
theorem c1_conflict_error_witness :
    run_with_options conflictEnv ⟨false, none⟩ =
      (.err (wrapStep 0 ((limit_logs demoLogs none).get ⟨0, by decide⟩).version
          conflictError),
        [.getLogs, .confirm (limit_logs demoLogs none)]
          ++ ((limit_logs demoLogs none).take 0).flatMap entryTrace
          ++ [.updateToRev ((limit_logs demoLogs none).get ⟨0, by decide⟩).version,
              .statusQuery]) ∧
    (run_with_options conflictEnv ⟨false, none⟩).2.filter isAddAllEvent =
      List.replicate 0 .addAll :=
  c1_conflict_error_before_stage conflictEnv demoLogs none 0 "UU conflict.txt".data
    rfl rfl (by decide) (fun j hj => absurd hj (Nat.not_lt_zero j)) rfl rfl
    ⟨"UU conflict.txt".data, by decide, by decide⟩ (by decide)

/-- C1 as stated is refuted by a status whose earlier line starts with a
three-byte character: the status does contain a line whose first two
characters are the conflict code `UU`, yet the run ends in the byte-slice
panic, not in any error — in particular not in the distinct conflict
error. -/
theorem c1_counterexample :
    (∃ line ∈ rustLines "中中\nUU f".data,
      conflictPrefixes.contains (line.take 2) = true) ∧
    (run conflictPanicEnv).1 = .panic ∧
    ∀ e, (run conflictPanicEnv).1 ≠ RunResult.err e := by
  refine ⟨⟨"UU f".data, by decide, by decide⟩, by decide, ?_⟩
  intro e hcontr
  rw [show (run conflictPanicEnv).1 = .panic from by decide] at hcontr
  cases hcontr

end Svn2Git

namespace Svn2Git

/-- The two-byte slice of this line cannot panic: the line is shorter than
two bytes, or byte offset 2 is a character boundary. -/
def lineSliceSafe (line : List Char) : Bool :=
  decide (byteLen line < 2) || (sliceFirstTwoBytes line).isSome

/-- The split of a string into newline-separated fields is never empty. -/
theorem splitOnNewline_ne_nil (s : List Char) : splitOnNewline s ≠ [] := by
  cases s with
  | nil => simp [splitOnNewline]
  | cons c rest =>
    by_cases hc : c = '\n'
    · simp [splitOnNewline, hc]
    · simp only [splitOnNewline, hc, if_false]
      cases h : splitOnNewline rest <;> simp

/-- Characters of a newline-split field are characters of the string. -/
theorem mem_of_mem_splitOnNewline (s : List Char) (l : List Char) (c : Char)
    (hl : l ∈ splitOnNewline s) (hc : c ∈ l) : c ∈ s := by
  induction s generalizing l with
  | nil =>
    simp [splitOnNewline] at hl
    subst hl
    cases hc
  | cons ch rest ih =>
    by_cases hch : ch = '\n'
    · simp only [splitOnNewline, hch, if_true, List.mem_cons] at hl
      rcases hl with rfl | hl
      · cases hc
      · exact List.mem_cons_of_mem _ (ih l hl hc)
    · simp only [splitOnNewline, hch, if_false] at hl
      cases hsp : splitOnNewline rest with
      | nil => exact absurd hsp (splitOnNewline_ne_nil rest)
      | cons l0 ls =>
        rw [hsp] at hl
        rcases List.mem_cons.mp hl with rfl | hl2
        · rcases List.mem_cons.mp hc with rfl | hc2
          · exact List.mem_cons_self _ _
          · exact List.mem_cons_of_mem _ (ih l0 (by rw [hsp]; exact List.mem_cons_self _ _) hc2)
        · exact List.mem_cons_of_mem _ (ih l (by rw [hsp]; exact List.mem_cons_of_mem _ hl2) hc)

/-- Characters of a stripped line are characters of the unstripped line. -/
theorem mem_of_mem_stripTrailingCR (l : List Char) (c : Char)
    (hc : c ∈ stripTrailingCR l) : c ∈ l := by
  unfold stripTrailingCR at hc
  split at hc
  · exact (List.dropLast_sublist l).subset hc
  · exact hc

/-- Characters of any line of a string are characters of the string. -/
theorem mem_of_mem_rustLines (s : List Char) (l : List Char) (c : Char)
    (hl : l ∈ rustLines s) (hc : c ∈ l) : c ∈ s := by
  unfold rustLines at hl
  split at hl
  · cases hl
  · simp only [List.mem_map] at hl
    obtain ⟨l0, hl0, rfl⟩ := hl
    have hl0s : l0 ∈ splitOnNewline s := by
      by_cases hlast : s.getLast? = some '\n'
      · simp only [hlast, if_true] at hl0
        exact (List.dropLast_sublist _).subset hl0
      · simpa [hlast] using hl0
    exact mem_of_mem_splitOnNewline s l0 c hl0s (mem_of_mem_stripTrailingCR l0 c hc)

/-- A slice-safe line's conflict scan cannot panic. -/
theorem lineConflict_isSome_of_safe (line : List Char)
    (h : lineSliceSafe line = true) : (lineConflict line).isSome = true := by
  unfold lineSliceSafe at h
  unfold lineConflict
  rcases Bool.or_eq_true_iff.mp h with h2 | h2
  · simp [of_decide_eq_true h2]
  · by_cases hlen : byteLen line < 2
    · simp [hlen]
    · cases hsl : sliceFirstTwoBytes line with
      | none => rw [hsl] at h2; cases h2
      | some pre => simp [hlen, hsl]

/-- If no line's scan panics, the whole scan returns a boolean. -/
theorem anyLineConflict_isSome (lines : List (List Char))
    (h : ∀ l ∈ lines, (lineConflict l).isSome = true) :
    (anyLineConflict lines).isSome = true := by
  induction lines with
  | nil => simp [anyLineConflict]
  | cons hd tl ih =>
    have hhd := h hd (List.mem_cons_self _ _)
    cases hhd2 : lineConflict hd with
    | none => rw [hhd2] at hhd; cases hhd
    | some b =>
      cases b with
      | true => simp [anyLineConflict, hhd2]
      | false =>
        simp only [anyLineConflict, hhd2]
        exact ih fun l hl => h l (List.mem_cons_of_mem _ hl)

/-- C10 (amended): `has_conflict_entries` returns a boolean — does not
panic — for every input all of whose lines are slice-safe (shorter than two
bytes, or with byte offset 2 on a character boundary); in particular it
returns a boolean on every all-ASCII input.  (On other inputs it can panic;
see the counterexample.) -/
theorem c10_no_panic_on_safe_input (s : List Char) :
    ((rustLines s).all lineSliceSafe = true →
      (has_conflict_entries s).isSome = true) ∧
    (s.all (fun c => decide (c.toNat < 128)) = true →
      (has_conflict_entries s).isSome = true) := by
  constructor
  · intro h
    exact anyLineConflict_isSome _ fun l hl =>
      lineConflict_isSome_of_safe l (List.all_eq_true.mp h l hl)
  · intro h
    refine anyLineConflict_isSome _ fun l hl => lineConflict_isSome_of_safe l ?_
    have hascii : ∀ c ∈ l, c.toNat < 128 := fun c hc =>
      of_decide_eq_true (List.all_eq_true.mp h c (mem_of_mem_rustLines s l c hl hc))
    unfold lineSliceSafe
    cases l with
    | nil => simp [byteLen]
    | cons c rest =>
      have hc1 : utf8Len c = 1 := by
        have := hascii c (List.mem_cons_self _ _)
        simp [utf8Len]
        omega
      by_cases hlen : byteLen (c :: rest) < 2
      · simp [hlen]
      · cases rest with
        | nil =>
          exact absurd (by simp [byteLen, hc1]) hlen
        | cons d rest2 =>
          have hd1 : utf8Len d = 1 := by
            have := hascii d (List.mem_cons_of_mem _ (List.mem_cons_self _ _))
            simp [utf8Len]
            omega
          simp [sliceFirstTwoBytes, hc1, hd1]

/-- Concrete instances of `c10_no_panic_on_safe_input`: a two-line ASCII
status is scanned without panic through either sufficient condition. -/
theorem c10_no_panic_witness :
    (has_conflict_entries "?? a.txt\nUU b.rs".data).isSome = true ∧
    (has_conflict_entries "DD x".data).isSome = true :=
  ⟨(c10_no_panic_on_safe_input "?? a.txt\nUU b.rs".data).1 (by decide),
   (c10_no_panic_on_safe_input "DD x".data).2 (by decide)⟩

/-- C10 as stated is refuted: on the one-line input `中` — a single
three-byte character, so the line is at least two bytes long and begins
with a multi-byte character — the scan panics (returns no boolean): byte
offset 2 falls inside the character. -/
theorem c10_counterexample :
    has_conflict_entries "中".data = none ∧
    2 ≤ byteLen "中".data ∧ utf8Len '中' = 3 := by decide

end Svn2Git

namespace Svn2Git

/-- Splitting a list's length by a predicate. -/
theorem filter_not_length_add (p : HistoryRecord → Bool) (l : List HistoryRecord) :
    (l.filter fun a => !p a).length + (l.filter p).length = l.length := by
  induction l with
  | nil => rfl
  | cons x xs ih =>
    by_cases hx : p x = true <;> simp [List.filter_cons, hx, ← ih] <;> omega

/-- Sorting does not change how many records carry a given pair. -/
theorem countPair_sortByLastUsed (l : List HistoryRecord) (s g : String) :
    countPair (sortByLastUsed l) s g = countPair l s g := by
  unfold countPair
  rw [← List.countP_eq_length_filter, ← List.countP_eq_length_filter]
  exact (List.perm_insertionSort lastUsedLE l).countP_eq _

/-- Sorting does not change the length. -/
theorem length_sortByLastUsed (l : List HistoryRecord) :
    (sortByLastUsed l).length = l.length :=
  (List.perm_insertionSort lastUsedLE l).length_eq

/-- The number of records with a given pair after `add_record` is one. -/
theorem countPair_add_record (records : List HistoryRecord)
    (svn_path git_path : String) (now : Nat) :
    countPair (add_record records svn_path git_path now) svn_path git_path = 1 := by
  simp only [add_record]
  rw [countPair_sortByLastUsed]
  unfold countPair
  rw [← List.countP_eq_length_filter, List.countP_append]
  have h0 : (records.filter fun r => !(r.path_eq svn_path git_path)).countP
      (fun r => r.path_eq svn_path git_path) = 0 := by
    rw [List.countP_eq_zero]
    intro a ha
    have := List.of_mem_filter ha
    simpa using this
  rw [h0]
  simp [HistoryRecord.path_eq]

/-- C6: after `add_record` the collection holds exactly one record with the
added pair (in particular at most one) and is sorted ascending by
`last_used`; adding the identical pair again keeps the size constant, and
afterwards every record with that pair carries the fresh timestamp (the
stale copy is gone). -/
theorem c6_add_record_invariants (records : List HistoryRecord)
    (svn_path git_path : String) (t t2 : Nat) :
    countPair (add_record records svn_path git_path t) svn_path git_path = 1 ∧
    List.Sorted lastUsedLE (add_record records svn_path git_path t) ∧
    (add_record (add_record records svn_path git_path t) svn_path git_path t2).length
      = (add_record records svn_path git_path t).length ∧
    ((add_record (add_record records svn_path git_path t) svn_path git_path t2).all
      fun r => !(r.path_eq svn_path git_path) || (r.last_used == t2)) = true := by
  refine ⟨countPair_add_record records svn_path git_path t, ?_, ?_, ?_⟩
  · exact List.sorted_insertionSort lastUsedLE _
  · set A := add_record records svn_path git_path t with hA
    have hsplit := filter_not_length_add (fun r => r.path_eq svn_path git_path) A
    have hcount := countPair_add_record records svn_path git_path t
    rw [← hA] at hcount
    unfold countPair at hcount
    show (add_record A svn_path git_path t2).length = A.length
    simp only [add_record]
    rw [length_sortByLastUsed, List.length_append]
    simp only [List.length_cons, List.length_nil]
    omega
  · rw [List.all_eq_true]
    intro r hr
    cases hpe : r.path_eq svn_path git_path with
    | false => simp
    | true =>
      simp only [hpe, Bool.not_true, Bool.false_or]
      simp only [add_record, sortByLastUsed] at hr
      rw [(List.perm_insertionSort lastUsedLE _).mem_iff, List.mem_append] at hr
      rcases hr with hr | hr
      · have := List.of_mem_filter hr
        rw [hpe] at this
        cases this
      · rcases List.mem_singleton.mp hr with rfl
        exact beq_self_eq_true t2

end Svn2Git

namespace Svn2Git

/-- C9: `remove_record` with an index at or beyond the record count reports
an application error — no panic, the collection untouched, the storage port
not invoked; with an in-range index it removes exactly the record at that
index (keeping everything before it and everything after it) and
immediately persists the remaining records through the storage port. -/
theorem c9_remove_record_bounds (records : List HistoryRecord) (index : Nat)
    (saveResp : Except SyncError Unit) :
    (records.length ≤ index →
      remove_record records index saveResp =
        ⟨.error (.app "索引超出范围"), records, none⟩) ∧
    (index < records.length →
      remove_record records index saveResp =
        ⟨saveResp, records.take index ++ records.drop (index + 1),
          some (records.take index ++ records.drop (index + 1))⟩) := by
  constructor
  · intro h
    simp [remove_record, h]
  · intro h
    have h2 : ¬ records.length ≤ index := by omega
    simp [remove_record, h2, List.eraseIdx_eq_take_drop_succ]

/-- Concrete instances of `c9_remove_record_bounds`: removing index 5 from
a two-record store errors and keeps the store; removing index 0 drops
exactly the first record and saves the remainder. -/
theorem c9_remove_record_witness :
    remove_record [⟨1, "s1", "g1", 3⟩, ⟨2, "s2", "g2", 4⟩] 5 (.ok ()) =
      ⟨.error (.app "索引超出范围"), [⟨1, "s1", "g1", 3⟩, ⟨2, "s2", "g2", 4⟩], none⟩ ∧
    remove_record [⟨1, "s1", "g1", 3⟩, ⟨2, "s2", "g2", 4⟩] 0 (.ok ()) =
      ⟨.ok (), [⟨1, "s1", "g1", 3⟩, ⟨2, "s2", "g2", 4⟩].take 0
          ++ [⟨1, "s1", "g1", 3⟩, ⟨2, "s2", "g2", 4⟩].drop 1,
        some ([⟨1, "s1", "g1", 3⟩, ⟨2, "s2", "g2", 4⟩].take 0
          ++ [⟨1, "s1", "g1", 3⟩, ⟨2, "s2", "g2", 4⟩].drop 1)⟩ :=
  ⟨(c9_remove_record_bounds [⟨1, "s1", "g1", 3⟩, ⟨2, "s2", "g2", 4⟩] 5 (.ok ())).1
      (by decide),
   (c9_remove_record_bounds [⟨1, "s1", "g1", 3⟩, ⟨2, "s2", "g2", 4⟩] 0 (.ok ())).2
      (by decide)⟩

end Svn2Git

namespace Svn2Git

/-- Does the second string start with the first? -/
def leadsWith : List Char → List Char → Bool
  | [], _ => true
  | _ :: _, [] => false
  | a :: as, b :: bs => a == b && leadsWith as bs

/-- Does the haystack contain the needle as a contiguous run? -/
def containsSeq (needle : List Char) : List Char → Bool
  | [] => needle.isEmpty
  | c :: rest => leadsWith needle (c :: rest) || containsSeq needle rest

/-- A repository whose only file is an untracked `test.txt`. -/
def untrackedRepo : MockGitRepo :=
  ⟨[("test.txt", GitFileStatus.untracked)], [], true, "main"⟩

/-- C8 (amended): the in-memory backend's `status` returns the empty string
exactly when no file is in a non-committed state; when something is pending
it returns the fixed two-line placeholder listing, independent of which
files are actually pending. -/
theorem c8_mock_status_empty_iff_clean (repo : MockGitRepo) :
    (mockStatus repo = [] ↔ ∀ f ∈ repo.files, f.2 = GitFileStatus.committed) ∧
    (is_working_directory_clean repo = false →
      mockStatus repo = mockStatusPlaceholder) := by
  constructor
  · constructor
    · intro h f hf
      by_cases hc : is_working_directory_clean repo = true
      · exact of_decide_eq_true (List.all_eq_true.mp hc f hf)
      · exfalso
        unfold mockStatus at h
        rw [if_neg hc] at h
        exact absurd h (by decide)
    · intro h
      have hc : is_working_directory_clean repo = true :=
        List.all_eq_true.mpr fun f hf => decide_eq_true (h f hf)
      simp [mockStatus, hc]
  · intro h
    simp [mockStatus, h]

/-- Concrete instances of `c8_mock_status_empty_iff_clean`: a fully
committed repository reports an empty status; the untracked-file repository
reports the placeholder. -/
theorem c8_mock_status_witness :
    mockStatus ⟨[("a.txt", GitFileStatus.committed)], [], true, "main"⟩ = [] ∧
    mockStatus untrackedRepo = mockStatusPlaceholder :=
  ⟨(c8_mock_status_empty_iff_clean
      ⟨[("a.txt", GitFileStatus.committed)], [], true, "main"⟩).1.mpr (by decide),
   (c8_mock_status_empty_iff_clean untrackedRepo).2 (by decide)⟩

/-- C8 as stated is refuted: in `untrackedRepo` the file `test.txt` is in a
non-committed state, yet no line of the status output mentions it — the
output is the fixed placeholder, not a listing of the actual pending
files. -/
theorem c8_counterexample :
    (∃ f ∈ untrackedRepo.files, f.2 ≠ GitFileStatus.committed) ∧
    ((rustLines (mockStatus untrackedRepo)).all fun l =>
      !(containsSeq "test.txt".data l)) = true := by decide

end Svn2Git

namespace Svn2Git

/-! ## Round-trip lemmas for the JSON codec -/

/-- Stripping an expected fragment from itself-plus-tail yields the tail. -/
theorem dropLead?_append (p s : List Char) : dropLead? p (p ++ s) = some s := by
  induction p with
  | nil => rfl
  | cons c cs ih => simp [dropLead?, ih]

/-- Digit characters evaluate back to their value. -/
theorem digitVal_digitChar10 (d : Nat) (h : d < 10) :
    digitVal (digitChar10 d) = d := by
  interval_cases d <;> rfl

/-- Digit characters are digits. -/
theorem isDigit10_digitChar10 (d : Nat) (h : d < 10) :
    isDigit10 (digitChar10 d) = true := by
  interval_cases d <;> rfl

/-- Every character of a printed number is a digit. -/
theorem natDigits_digits (n : Nat) : ∀ c ∈ natDigits n, isDigit10 c = true := by
  induction n using Nat.strong_induction_on with
  | _ n ih =>
    intro c hc
    rw [natDigits] at hc
    by_cases h : n < 10
    · rw [dif_pos h] at hc
      rcases List.mem_singleton.mp hc with rfl
      exact isDigit10_digitChar10 n h
    · rw [dif_neg h] at hc
      rcases List.mem_append.mp hc with hc2 | hc2
      · exact ih (n / 10) (Nat.div_lt_self (by omega) (by omega)) c hc2
      · rcases List.mem_singleton.mp hc2 with rfl
        exact isDigit10_digitChar10 _ (Nat.mod_lt _ (by omega))

/-- A printed number is never the empty string. -/
theorem natDigits_ne_nil (n : Nat) : natDigits n ≠ [] := by
  rw [natDigits]
  by_cases h : n < 10
  · rw [dif_pos h]; simp
  · rw [dif_neg h]; simp

/-- The accumulator form of decimal evaluation over an append. -/
theorem digitsValGo_append (acc : Nat) (a b : List Char) :
    digitsValGo acc (a ++ b) = digitsValGo (digitsValGo acc a) b := by
  induction a generalizing acc with
  | nil => rfl
  | cons c cs ih => simp [digitsValGo, ih]

/-- Decimal evaluation inverts decimal printing, for any accumulator. -/
theorem digitsValGo_natDigits (n : Nat) :
    ∀ acc, digitsValGo acc (natDigits n) = acc * 10 ^ (natDigits n).length + n := by
  induction n using Nat.strong_induction_on with
  | _ n ih =>
    intro acc
    rw [natDigits]
    by_cases h : n < 10
    · rw [dif_pos h]
      simp [digitsValGo, digitVal_digitChar10 n h]
    · rw [dif_neg h]
      rw [digitsValGo_append, ih (n / 10) (Nat.div_lt_self (by omega) (by omega))]
      simp only [digitsValGo, digitVal_digitChar10 _ (Nat.mod_lt n (by omega)),
        List.length_append, List.length_singleton]
      rw [pow_succ]
      have hmod := Nat.div_add_mod n 10
      ring_nf
      omega

/-- Decimal evaluation inverts decimal printing. -/
theorem digitsVal_natDigits (n : Nat) : digitsVal (natDigits n) = n := by
  unfold digitsVal
  rw [digitsValGo_natDigits n 0]
  simp

/-- Splitting an append at the first non-satisfying element. -/
theorem takeWhile_append_all (p : Char → Bool) (a b : List Char)
    (ha : ∀ c ∈ a, p c = true) (hb : ∀ c, b.head? = some c → p c = false) :
    (a ++ b).takeWhile p = a ∧ (a ++ b).dropWhile p = b := by
  induction a with
  | nil =>
    cases b with
    | nil => simp
    | cons c cs =>
      have := hb c rfl
      simp [List.takeWhile_cons, List.dropWhile_cons, this]
  | cons x xs ih =>
    have hx := ha x (List.mem_cons_self _ _)
    have ih2 := ih fun c hc => ha c (List.mem_cons_of_mem _ hc)
    simp [List.takeWhile_cons, List.dropWhile_cons, hx, ih2.1, ih2.2]

/-- Parsing a printed number followed by a non-digit recovers the number. -/
theorem parseNatLead_append (n : Nat) (rest : List Char)
    (h : ∀ c, rest.head? = some c → isDigit10 c = false) :
    parseNatLead (natDigits n ++ rest) = some (n, rest) := by
  obtain ⟨d, ds, hds⟩ : ∃ d ds, natDigits n = d :: ds := by
    cases h2 : natDigits n with
    | nil => exact absurd h2 (natDigits_ne_nil n)
    | cons d ds => exact ⟨d, ds, rfl⟩
  have hsplit := takeWhile_append_all isDigit10 (natDigits n) rest
    (natDigits_digits n) h
  unfold parseNatLead
  rw [hsplit.1, hsplit.2, hds]
  show some (digitsVal (d :: ds), rest) = some (n, rest)
  rw [← hds, digitsVal_natDigits]

/-- Hexadecimal digit characters evaluate back to their value. -/
theorem hexVal?_hexDigit (m : Nat) (h : m < 16) :
    hexVal? (hexDigit m) = some m := by
  interval_cases m <;> rfl

end Svn2Git


namespace Svn2Git

/-- Escaping never shortens a string. -/
theorem escapeString_length_ge (s : List Char) : s.length ≤ (escapeString s).length := by
  induction s with
  | nil => simp [escapeString]
  | cons c cs ih =>
    have hc : 1 ≤ (escapeChar c).length := by
      unfold escapeChar
      split_ifs <;> simp
    simp only [escapeString, List.flatMap_cons, List.length_append, List.length_cons]
    simp only [escapeString] at ih
    omega

theorem parseStringBody_escape (s : List Char) :
    ∀ (fuel : Nat) (rest : List Char), s.length < fuel →
    parseStringBody fuel (escapeString s ++ '"' :: rest) = some (s, rest) := by
  induction s with
  | nil =>
    intro fuel rest hf
    cases fuel with
    | zero => omega
    | succ f => simp [escapeString, parseStringBody]
  | cons c cs ih =>
    intro fuel rest hf
    cases fuel with
    | zero => simp at hf
    | succ f =>
      have hf2 : cs.length < f := by simp at hf; omega
      have hexp : escapeString (c :: cs) = escapeChar c ++ escapeString cs := by
        simp [escapeString]
      rw [hexp, List.append_assoc]
      unfold escapeChar
      by_cases h1 : c = '"'
      · subst h1
        simp [parseStringBody, decodeEscape, consParsed, ih f rest hf2]
      · rw [if_neg h1]
        by_cases h2 : c = '\\'
        · subst h2
          simp [parseStringBody, decodeEscape, consParsed, ih f rest hf2]
        · rw [if_neg h2]
          by_cases h3 : c = backspaceChar
          · subst h3
            simp [parseStringBody, decodeEscape, consParsed, ih f rest hf2]
          · rw [if_neg h3]
            by_cases h4 : c = '\t'
            · subst h4
              simp [parseStringBody, decodeEscape, consParsed, ih f rest hf2]
            · rw [if_neg h4]
              by_cases h5 : c = '\n'
              · subst h5
                simp [parseStringBody, decodeEscape, consParsed, ih f rest hf2]
              · rw [if_neg h5]
                by_cases h6 : c = formFeedChar
                · subst h6
                  simp [parseStringBody, decodeEscape, consParsed, ih f rest hf2]
                · rw [if_neg h6]
                  by_cases h7 : c = '\r'
                  · subst h7
                    simp [parseStringBody, decodeEscape, consParsed, ih f rest hf2]
                  · rw [if_neg h7]
                    by_cases h8 : c.toNat < 0x20
                    · rw [if_pos h8]
                      have hhi : c.toNat / 16 < 16 := by omega
                      have hlo : c.toNat % 16 < 16 := Nat.mod_lt _ (by omega)
                      simp only [List.cons_append, List.nil_append]
                      simp [parseStringBody, decodeEscape, decodeUnicodeEscape,
                        hexVal?_hexDigit _ hhi, hexVal?_hexDigit _ hlo,
                        show hexVal? '0' = some 0 from rfl,
                        consParsed, ih f rest hf2]
                      rw [show c.toNat / 16 * 16 + c.toNat % 16 = c.toNat by omega]
                      simp [Char.ofNat_toNat]
                    · rw [if_neg h8]
                      simp [parseStringBody, h1, h2, h8, consParsed, ih f rest hf2]

end Svn2Git


namespace Svn2Git

/-- Parsing a printed number placed before the `svn_path` key fragment. -/
theorem parseNatLead_jSvn (n : Nat) (X : List Char) :
    parseNatLead (natDigits n ++ (jSvn ++ X)) = some (n, jSvn ++ X) := by
  apply parseNatLead_append
  intro c hc
  rw [show (jSvn ++ X).head? = some ',' from rfl] at hc
  injection hc with hc
  subst hc
  rfl

theorem parseNatLead_jEnd (n : Nat) (X : List Char) :
    parseNatLead (natDigits n ++ (jEnd ++ X)) = some (n, jEnd ++ X) := by
  apply parseNatLead_append
  intro c hc
  rw [show (jEnd ++ X).head? = some '\x7d' from rfl] at hc
  injection hc with hc
  subst hc
  rfl

theorem parseStringBody_escape_len (s rest : List Char) :
    parseStringBody (escapeString s ++ '"' :: rest).length
      (escapeString s ++ '"' :: rest) = some (s, rest) := by
  apply parseStringBody_escape
  have := escapeString_length_ge s
  simp only [List.length_append, List.length_cons]
  omega

theorem parseRecord_encode (r : HistoryRecord) (rest : List Char) :
    parseRecord (encodeRecord r ++ rest) = some (r, rest) := by
  obtain ⟨id, ⟨svnl⟩, ⟨gitl⟩, lu⟩ := r
  unfold encodeRecord parseRecord
  simp only [List.append_assoc, List.singleton_append, List.cons_append,
    List.nil_append]
  simp only [dropLead?_append, parseNatLead_jSvn, parseNatLead_jEnd,
    parseStringBody_escape_len, List.nil_append]

end Svn2Git


namespace Svn2Git

/-- Each element of the separated tail contributes at least its comma. -/
theorem flatMap_comma_length_ge (rs : List HistoryRecord) :
    rs.length ≤ (rs.flatMap fun x => ',' :: encodeRecord x).length := by
  induction rs with
  | nil => simp
  | cons r rs ih =>
    simp only [List.flatMap_cons, List.length_append, List.length_cons]
    omega

theorem parseRecSeq_encode (rs : List HistoryRecord) :
    ∀ (r : HistoryRecord) (fuel : Nat), rs.length ≤ fuel →
    parseRecSeq fuel
      (encodeRecord r ++ ((rs.flatMap fun x => ',' :: encodeRecord x) ++ [']'])) =
      some (r :: rs) := by
  induction rs with
  | nil =>
    intro r fuel _
    cases fuel <;>
      simp [parseRecSeq, parseRecord_encode]
  | cons x xs ih =>
    intro r fuel hfuel
    cases fuel with
    | zero => simp at hfuel
    | succ fuel2 =>
      have hx := ih x fuel2 (by simp at hfuel; omega)
      simp only [List.flatMap_cons, List.append_assoc, List.cons_append]
      simp only [List.append_assoc] at hx
      simp [parseRecSeq, parseRecord_encode, hx]

theorem encodeRecord_cons (r : HistoryRecord) :
    encodeRecord r = '\x7b' :: ("\"id\":".data ++ natDigits r.id ++ jSvn
      ++ escapeString r.svn_path.data ++ ['"'] ++ jGit
      ++ escapeString r.git_path.data ++ ['"'] ++ jLast
      ++ natDigits r.last_used ++ jEnd) := by
  unfold encodeRecord
  rw [show jId = '\x7b' :: "\"id\":".data from rfl]
  simp [List.append_assoc]

theorem from_slice_to_vec (records : List HistoryRecord) :
    from_slice (to_vec records) = some records := by
  cases records with
  | nil => rfl
  | cons r rs =>
    obtain ⟨t, ht⟩ : ∃ t,
        encodeRecord r ++ ((rs.flatMap fun x => ',' :: encodeRecord x) ++ [']'])
          = '\x7b' :: t :=
      ⟨_, by rw [encodeRecord_cons, List.cons_append]⟩
    have hfuel : rs.length ≤
        (encodeRecord r ++ ((rs.flatMap fun x => ',' :: encodeRecord x) ++ [']'])).length := by
      simp only [List.length_append]
      have := flatMap_comma_length_ge rs
      omega
    simp only [to_vec, from_slice, List.append_assoc, if_true]
    rw [ht]
    simp only [fromSliceBody]
    rw [if_neg (by decide : ¬ ('\x7b' : Char) = ']')]
    rw [← ht]
    refine parseRecSeq_encode rs r _ ?_
    rw [ht] at hfuel ⊢
    exact hfuel

/-- C7: saving any list of history records through the storage port and
loading it back returns a collection equal to the saved list, and loading
when no backing store exists yields the empty collection rather than an
error. -/
theorem c7_round_trip (records : List HistoryRecord) :
    DiskStorage.load (DiskStorage.save records) = .ok records ∧
    DiskStorage.load none = .ok [] := by
  constructor
  · simp [DiskStorage.save, DiskStorage.load, from_slice_to_vec]
  · rfl

end Svn2Git
